import Mathlib

/-!
# songcollect: a content-addressed catalog of files

A shallow embedding of `songcollect.go` (types `File`, `Path`, `Database`, the
methods `Path.Equal`, `Database.ImportDir`, `Database.Save`) together with the
library functions it calls (`hash/fnv`, `path/filepath`, `strings.TrimPrefix`),
followed by the properties proved about it.

Conventions of the embedding:
* a Go `string` is a Lean `String`; `uint64` values are `Nat` reduced modulo `2^64`
  where arithmetic may overflow; `int64` sizes are `Int`;
* the Go map `map[uint64]*File` is a function `Nat → Option File`;
* every filesystem call made by the walk has its outcome (a value or an error)
  stored in the directory listing that the walk is run on;
* `log.Fatal` is the outcome `fatal`; a returned `error` is the outcome `err`.
-/

namespace Songcollect

/-! ## Data model (songcollect.go, lines 21-40) -/

/-- The struct `Path`: one location, relative to an import base. -/
structure Path where
  Base : String
  Dir : String
  Name : String
  deriving DecidableEq, Repr

/-- The method `Path.Equal`: equality of the concatenation `Base+Dir+Name`. -/
def Path.Equal (self p : Path) : Bool :=
  decide (self.Base ++ self.Dir ++ self.Name = p.Base ++ p.Dir ++ p.Name)

/-- The struct `File`: the catalog record of one content identity. -/
structure File where
  Id : Nat
  Paths : List Path
  Size : Int
  deriving DecidableEq, Repr

/-- The struct `Database`: the map from identity to record and the backing file path. -/
structure Database where
  Files : Nat → Option File
  path : String

/-- The catalog `NewDatabase` builds when no backing file exists: an empty map. -/
def Database.empty (filePath : String) : Database :=
  { Files := fun _ => none, path := filePath }

/-- Map assignment `self.Files[sum] = file`. -/
def Database.set (self : Database) (sum : Nat) (file : File) : Database :=
  { self with Files := fun k => if k = sum then some file else self.Files k }

/-- The errors `ImportDir` can return. -/
inductive Error where
  | io (msg : String)
  | notDirectory (dir : String)
  | conflict (sum : Nat) (size : Int) (file : File)
  deriving DecidableEq, Repr

/-! ## The merge step of `ImportDir` (lines 105-138) -/

/-- Lines 117-138: look for `path` among the record's paths with `Equal`;
append it to the record stored under `sum` when it is not found. -/
def recordPath (db : Database) (sum : Nat) (file : File) (path : Path) : Database :=
  if file.Paths.any (fun p => p.Equal path) then db
  else db.set sum { file with Paths := file.Paths ++ [path] }

/-- Lines 105-138: the merge of one observation `(sum, size, path)` into the catalog.
A known identity with a different size is the `conflict hash` error (line 108),
returned before anything is written. -/
def mergeStep (db : Database) (sum : Nat) (size : Int) (path : Path) : Except Error Database :=
  match db.Files sum with
  | some file =>
    if file.Size ≠ size then .error (.conflict sum size file)
    else .ok (recordPath db sum file path)
  | none =>
    let file : File := { Id := sum, Paths := [], Size := size }
    .ok (recordPath (db.set sum file) sum file path)

/-- A finite sequence of observations merged in order, stopping at the first error. -/
def mergeAll (db : Database) : List (Nat × Int × Path) → Except Error Database
  | [] => .ok db
  | (sum, size, path) :: rest =>
    match mergeStep db sum size path with
    | .ok db1 => mergeAll db1 rest
    | .error e => .error e

/-- The paths recorded under `sum` (none when the identity is unknown). -/
def Database.pathsOf (db : Database) (sum : Nat) : List Path :=
  match db.Files sum with
  | some file => file.Paths
  | none => []

/-- No record holds two `Equal` paths at distinct positions. -/
def NoDupPaths (db : Database) : Prop :=
  ∀ k file, db.Files k = some file → file.Paths.Pairwise (fun p q => p.Equal q = false)

/-! ## `hash/fnv`: the 64-bit FNV-1 hasher -/

/-- The constant `offset64` of `hash/fnv`. -/
def offset64 : Nat := 14695981039346656037

/-- The constant `prime64` of `hash/fnv`. -/
def prime64 : Nat := 1099511628211

/-- One iteration of `(*sum64).Write`: `hash *= prime64; hash ^= sum64(c)` on `uint64`. -/
def hashByte (hash c : Nat) : Nat :=
  ((hash * prime64) % 2 ^ 64) ^^^ (c % 256)

/-- The method `(*sum64).Write`: feed the bytes of `data` in order. -/
def hasherWrite (hash : Nat) (data : List Nat) : Nat :=
  data.foldl hashByte hash

/-- The method `(*sum64).Reset`. -/
def hasherReset (_hash : Nat) : Nat :=
  offset64

/-- The call `io.Copy(hasher, fileFile)`: every chunk read from the file is written to the
hasher; the result is the hasher afterwards and the read error that ended the copy, if any. -/
def ioCopy (hash : Nat) (chunks : List (List Nat)) (readErr : Option String) :
    Nat × Option String :=
  (chunks.foldl hasherWrite hash, readErr)

/-- The 64-bit FNV-1 hash of a byte sequence, as the specification words it:
start from the offset basis; per byte, multiply by the prime modulo `2^64`, then XOR the byte. -/
def fnv1 : List Nat → Nat → Nat
  | [], h => h
  | b :: bs, h => fnv1 bs (((h * 1099511628211) % 18446744073709551616) ^^^ (b % 256))

/-! ## `path/filepath` and `strings` on a Unix system -/

/-- The elements of a path: the pieces between the separators `/`. -/
def splitSlash : List Char → List (List Char)
  | [] => [[]]
  | c :: cs =>
    if c = '/' then [] :: splitSlash cs
    else
      match splitSlash cs with
      | [] => [[c]]
      | x :: xs => (c :: x) :: xs

/-- The elements joined with a single `/` between them. -/
def joinSlash : List (List Char) → List Char
  | [] => []
  | [x] => x
  | x :: y :: rest => x ++ '/' :: joinSlash (y :: rest)

/-- One element processed by `filepath.Clean`: empty elements and `.` are dropped;
`..` removes the element before it when there is one that is not itself `..`,
is dropped at the root of a rooted path and is kept otherwise; any other element is kept. -/
def cleanStep (rooted : Bool) (out : List (List Char)) (elem : List Char) : List (List Char) :=
  if elem = [] ∨ elem = ['.'] then out
  else if elem = ['.', '.'] then
    if out ≠ [] ∧ out.getLast? ≠ some ['.', '.'] then out.dropLast
    else if rooted then out
    else out ++ [elem]
  else out ++ [elem]

/-- The function `filepath.Clean` (Unix): the shortest path name equivalent to `path`
by purely lexical processing. -/
def Clean (path : String) : String :=
  if path = "" then "."
  else
    let rooted := path.data.head? = some '/'
    let out := (splitSlash path.data).foldl (cleanStep rooted) []
    if rooted then String.mk ('/' :: joinSlash out)
    else if out = [] then "."
    else String.mk (joinSlash out)

/-- The function `filepath.Join` for two elements: empty leading elements are ignored,
the rest is joined with `/` and cleaned. -/
def Join (dir name : String) : String :=
  if dir ≠ "" then Clean (dir ++ "/" ++ name)
  else if name ≠ "" then Clean name
  else ""

/-- The function `filepath.IsAbs` (Unix). -/
def IsAbs (path : String) : Bool :=
  path.data.head? = some '/'

/-- The function `filepath.Abs`; `getwd` is the outcome of `os.Getwd`. -/
def Abs (getwd : Except String String) (path : String) : Except Error String :=
  if IsAbs path then .ok (Clean path)
  else
    match getwd with
    | .ok wd => .ok (Join wd path)
    | .error e => .error (.io e)

/-- The function `strings.TrimPrefix`. -/
def TrimPrefix (s pre : String) : String :=
  if pre.data.isPrefixOf s.data then String.mk (s.data.drop pre.data.length) else s

/-- The function `filepath.Split`: split right after the final separator. -/
def Split (path : String) : String × String :=
  let r := path.data.reverse
  (String.mk (r.dropWhile (fun c => c ≠ '/')).reverse,
   String.mk (r.takeWhile (fun c => c ≠ '/')).reverse)

/-- A path element that `Clean` keeps as it is: not empty, without separator,
neither `.` nor `..`. The names `Readdir` returns are of this kind. -/
def PlainName (x : List Char) : Prop :=
  x ≠ [] ∧ '/' ∉ x ∧ x ≠ ['.'] ∧ x ≠ ['.', '.']

/-- Lines 119-126: the `Path` value built for the file at `filePath`. -/
def mkPath (filePath base : String) : Path :=
  let relPath := TrimPrefix filePath base
  let (fileDir, fileName) := Split relPath
  { Base := base, Dir := fileDir, Name := fileName }

/-! ## `Database.Save` (lines 145-157) -/

/-- The outcomes of the four filesystem steps of one call of `Save`:
`os.Create`, `Encode`, `Close`, `os.Rename` (`none` is success). -/
structure SaveCalls where
  createErr : Option String
  encodeErr : Option String
  closeErr : Option String
  renameErr : Option String
  deriving DecidableEq, Repr

/-- How a call of `Save` ends: `log.Fatal` terminates the run, or `Save` returns;
`renamed` tells whether the temporary file replaced the backing file. -/
inductive SaveResult where
  | fatal (msg : String)
  | returned (renamed : Bool)
  deriving DecidableEq, Repr

/-- The method `Database.Save`: the results of `os.Create` and `Encode` are checked and
fatal, the results of `Close` (line 155) and `os.Rename` (line 156) are discarded. -/
def Save (calls : SaveCalls) : SaveResult :=
  match calls.createErr with
  | some e => .fatal e
  | none =>
    match calls.encodeErr with
    | some e => .fatal e
    | none => .returned calls.renameErr.isNone

/-! ## The filesystem seen by the walk -/

/-- A directory entry that is not a directory: its `FileInfo` and the outcomes of
`os.Open` and of reading it (`chunks` are the reads that succeeded, in order, and
`readErr` the error that ended them, `none` for end of file). -/
structure FileEntry where
  name : String
  size : Int
  openErr : Option String
  chunks : List (List Nat)
  readErr : Option String
  deriving DecidableEq, Repr

/-- The outcomes of the calls one invocation of `ImportDir` makes on its directory:
`os.Stat`, `IsDir`, `os.Open`, `Readdir`, and the final `Save`. -/
structure DirCalls where
  statErr : Option String
  isDir : Bool
  openErr : Option String
  readdirErr : Option String
  save : SaveCalls
  deriving DecidableEq, Repr

/-- The slice `subInfos`: each entry is a file or a directory with its own listing. -/
inductive Listing where
  | nil : Listing
  | file (f : FileEntry) (rest : Listing) : Listing
  | dir (name : String) (calls : DirCalls) (subInfos : Listing) (rest : Listing) : Listing
  deriving Repr

/-- What the walk does that can be observed from outside. -/
inductive Event where
  | enter (dir : String)
  | openFile (dir name : String)
  | save (snapshot : Database)

/-- The catalog in memory and the events so far. -/
structure State where
  db : Database
  log : List Event

/-- Append one event to the log. -/
def State.emit (σ : State) (e : Event) : State :=
  { σ with log := σ.log ++ [e] }

/-- How a call ends: `nil` returned, an error returned, or the process terminated. -/
inductive Outcome where
  | ok
  | err (e : Error)
  | fatal (msg : String)
  deriving DecidableEq, Repr

/-! ## `Database.ImportDir` (lines 61-143) -/

/-- Lines 95-138: the loop body for an entry that is not a directory. -/
def importFile (f : FileEntry) (dir base : String) (hasher : Nat) (σ : State) :
    Outcome × Nat × State :=
  let filePath := Join dir f.name
  let σ := σ.emit (.openFile dir f.name)
  match f.openErr with
  | some e => (.err (.io e), hasher, σ)
  | none =>
    let hasher := hasherReset hasher
    let (hasher, _) := ioCopy hasher f.chunks f.readErr
    let sum := hasher
    match mergeStep σ.db sum f.size (mkPath filePath base) with
    | .error e => (.err e, hasher, σ)
    | .ok db => (.ok, hasher, { σ with db := db })

/-- Lines 62-86 of `ImportDir`: make both paths absolute, check that `dir` is a
directory, open it and list it. The result is the early return, or the absolute
`dir` and `base` the loop runs with. -/
def openDir (getwd : Except String String) (calls : DirCalls) (dir base : String)
    (σ : State) : Except (Outcome × State) (String × String × State) :=
  match Abs getwd dir with
  | .error e => .error (.err e, σ)
  | .ok dir =>
    match Abs getwd base with
    | .error e => .error (.err e, σ)
    | .ok base =>
      let σ := σ.emit (.enter dir)
      match calls.statErr with
      | some e => .error (.err (.io e), σ)
      | none =>
        if calls.isDir = false then .error (.err (.notDirectory dir), σ)
        else
          match calls.openErr with
          | some e => .error (.err (.io e), σ)
          | none =>
            match calls.readdirErr with
            | some e => .error (.err (.io e), σ)
            | none => .ok (dir, base, σ)

/-- Lines 141-142 of `ImportDir`: `self.Save()` and `return nil`. -/
def saveAndReturn (calls : DirCalls) (σ : State) : Outcome × State :=
  let σ := σ.emit (.save σ.db)
  match Save calls.save with
  | .fatal msg => (.fatal msg, σ)
  | .returned _ => (.ok, σ)

/-- Lines 61-143, the body of `ImportDir`, with the loop of lines 88-140 over the
directory's listing passed in as `loop`. -/
def importDirBody (getwd : Except String String) (calls : DirCalls)
    (loop : String → String → Nat → State → Outcome × State)
    (dir base : String) (σ : State) : Outcome × State :=
  match openDir getwd calls dir base σ with
  | .error r => r
  | .ok (dir, base, σ) =>
    match loop dir base offset64 σ with
    | (.ok, σ) => saveAndReturn calls σ
    | r => r

/-- Lines 87-140: the loop over `subInfos`; `hasher` is the state of the hasher
created at line 87 and shared by the files of this directory. A directory entry is
the recursive call `self.ImportDir(filepath.Join(dir, info.Name()), base)`, which
runs the body on the listing of that directory. -/
def importEntries (getwd : Except String String) :
    Listing → String → String → Nat → State → Outcome × State
  | .nil, _, _, _, σ => (.ok, σ)
  | .dir name calls sub rest, dir, base, hasher, σ =>
    match importDirBody getwd calls (importEntries getwd sub) (Join dir name) base σ with
    | (.ok, σ) => importEntries getwd rest dir base hasher σ
    | r => r
  | .file f rest, dir, base, hasher, σ =>
    match importFile f dir base hasher σ with
    | (.ok, hasher, σ) => importEntries getwd rest dir base hasher σ
    | (r, _, σ) => (r, σ)

/-- The method `Database.ImportDir`, run on the directory whose calls are `calls` and
whose listing is `subInfos`. -/
def ImportDir (getwd : Except String String) (calls : DirCalls) (subInfos : Listing)
    (dir base : String) (σ : State) : Outcome × State :=
  importDirBody getwd calls (importEntries getwd subInfos) dir base σ

/-! ## Vocabulary of the statements -/

/-- The kind of an event, without paths and snapshots. -/
inductive Step where
  | enter
  | file (name : String)
  | save
  deriving DecidableEq, Repr

/-- The kind of an event. -/
def Event.step : Event → Step
  | .enter _ => .enter
  | .openFile _ name => .file name
  | .save _ => .save

/-- The post-order of a listing: the entries in order, each directory as its own
entries between its `enter` and its `save`. -/
def postOrder : Listing → List Step
  | .nil => []
  | .file f rest => .file f.name :: postOrder rest
  | .dir _ _ sub rest => (.enter :: postOrder sub ++ [.save]) ++ postOrder rest

/-- The number of directories below a listing, at any depth. -/
def dirCount : Listing → Nat
  | .nil => 0
  | .file _ rest => dirCount rest
  | .dir _ _ sub rest => 1 + dirCount sub + dirCount rest

/-- The loop over a listing, started in directory `dir` with `base`, `hasher` and
state `σ`, gets to the file entry `f` — in that listing or in a directory below it —
in directory `d` with `b`, hasher `h` and state `τ`: every entry before `f` was
processed and returned `nil`, every enclosing directory was opened and listed. -/
inductive Reach (getwd : Except String String) (f : FileEntry) :
    Listing → String → String → Nat → State → String → String → Nat → State → Prop where
  | here (rest : Listing) (dir base : String) (hasher : Nat) (σ : State) :
    Reach getwd f (.file f rest) dir base hasher σ dir base hasher σ
  | afterFile (g : FileEntry) (rest : Listing) (dir base : String) (hasher hasher1 : Nat)
      (σ σ1 : State) (d b : String) (h : Nat) (τ : State) :
    importFile g dir base hasher σ = (.ok, hasher1, σ1) →
    Reach getwd f rest dir base hasher1 σ1 d b h τ →
    Reach getwd f (.file g rest) dir base hasher σ d b h τ
  | afterDir (name : String) (calls : DirCalls) (sub rest : Listing) (dir base : String)
      (hasher : Nat) (σ σ1 : State) (d b : String) (h : Nat) (τ : State) :
    ImportDir getwd calls sub (Join dir name) base σ = (.ok, σ1) →
    Reach getwd f rest dir base hasher σ1 d b h τ →
    Reach getwd f (.dir name calls sub rest) dir base hasher σ d b h τ
  | inDir (name : String) (calls : DirCalls) (sub rest : Listing) (dir base : String)
      (hasher : Nat) (σ σ1 : State) (dir1 base1 d b : String) (h : Nat) (τ : State) :
    openDir getwd calls (Join dir name) base σ = .ok (dir1, base1, σ1) →
    Reach getwd f sub dir1 base1 offset64 σ1 d b h τ →
    Reach getwd f (.dir name calls sub rest) dir base hasher σ d b h τ

/-! ## Concrete inputs -/

/-- A call of `Save` in which every step succeeds. -/
def okSave : SaveCalls :=
  { createErr := none, encodeErr := none, closeErr := none, renameErr := none }

/-- A call of `Save` in which only `os.Rename` fails. -/
def renameFails : SaveCalls :=
  { createErr := none, encodeErr := none, closeErr := none, renameErr := some "rename: EXDEV" }

/-- A directory on which every call succeeds. -/
def okDir : DirCalls :=
  { statErr := none, isDir := true, openErr := none, readdirErr := none, save := okSave }

/-- The state of a fresh run: the empty catalog, nothing done yet. -/
def freshState : State :=
  { db := Database.empty "/home/reus/.songcollect", log := [] }

/-- A file of size 5 that opens but whose first read fails. -/
def unreadableFile : FileEntry :=
  { name := "a", size := 5, openErr := none, chunks := [], readErr := some "read: EIO" }

/-- A one-byte file that is read to the end. -/
def smallFile : FileEntry :=
  { name := "b", size := 1, openErr := none, chunks := [[98]], readErr := none }

/-- A two-byte entry with the content of `smallFile`: same identity, other size. -/
def clashFile : FileEntry :=
  { name := "c", size := 2, openErr := none, chunks := [[98]], readErr := none }

/-- A directory tree whose walk meets `smallFile` and then, in `sub`, `clashFile`. -/
def conflictTree : Listing :=
  .file smallFile (.dir "sub" okDir (.file clashFile (.file smallFile .nil)) (.file smallFile .nil))

/-- The state of the walk of `conflictTree` when the loop of `/r` starts. -/
def conflictState1 : State :=
  freshState.emit (.enter "/r")

/-- The state of the walk of `conflictTree` after `smallFile` is merged. -/
def conflictState2 : State :=
  (importFile smallFile "/r" "/r" offset64 conflictState1).2.2

/-- The state of the walk of `conflictTree` when the loop of `/r/sub` starts. -/
def conflictState3 : State :=
  conflictState2.emit (.enter "/r/sub")

/-- A directory tree with one file and one subdirectory holding one file. -/
def smallTree : Listing :=
  .file smallFile (.dir "sub" okDir (.file unreadableFile .nil) .nil)

/-- A location of the examples. -/
def locA : Path :=
  { Base := "/r", Dir := "/", Name := "a.txt" }

/-- Another location of the examples. -/
def locB : Path :=
  { Base := "/r", Dir := "/sub/", Name := "b.txt" }

/-- The empty catalog after the observation `(7, 100, locA)`. -/
def catalogA : Database :=
  ((Database.empty "db").set 7 ⟨7, [], 100⟩).set 7 ⟨7, [locA], 100⟩

/-- The catalog `catalogA` after the observation `(7, 100, locB)`. -/
def catalogAB : Database :=
  catalogA.set 7 ⟨7, [locA, locB], 100⟩

/-- The empty catalog after the observation `(7, 100, {"ab", "", "n"})`. -/
def catalogShifted : Database :=
  ((Database.empty "db").set 7 ⟨7, [], 100⟩).set 7 ⟨7, [⟨"ab", "", "n"⟩], 100⟩

/-- The file `a.txt` of the end-to-end example: 100 bytes, read to the end. -/
def exampleFileA (chunks : List (List Nat)) : FileEntry :=
  { name := "a.txt", size := 100, openErr := none, chunks := chunks, readErr := none }

/-- The file `b.txt` of the end-to-end example: 100 bytes, read to the end. -/
def exampleFileB (chunks : List (List Nat)) : FileEntry :=
  { name := "b.txt", size := 100, openErr := none, chunks := chunks, readErr := none }

/-- The first import of the example: `ImportDir(root, root)` on a directory that holds
`a.txt`, into the empty catalog. -/
def firstImport (getwd : Except String String) (root dbPath : String)
    (chunks : List (List Nat)) : Outcome × State :=
  ImportDir getwd okDir (.file (exampleFileA chunks) .nil) root root
    { db := Database.empty dbPath, log := [] }

/-- The second import of the example: `ImportDir(root, root)` on a directory that holds
`sub/b.txt`, from the state `σ`. -/
def secondImport (getwd : Except String String) (root : String)
    (chunks : List (List Nat)) (σ : State) : Outcome × State :=
  ImportDir getwd okDir (.dir "sub" okDir (.file (exampleFileB chunks) .nil) .nil) root root σ

/-! ## Properties of `Path.Equal` and of the merge step -/

theorem Path.equal_iff (p q : Path) :
    p.Equal q = true ↔ p.Base ++ p.Dir ++ p.Name = q.Base ++ q.Dir ++ q.Name := by
  simp [Path.Equal]

theorem Path.equal_refl (p : Path) : p.Equal p = true := by
  simp [Path.Equal]

theorem Path.equal_congr_right {p q : Path} (h : p.Equal q = true) (r : Path) :
    r.Equal p = r.Equal q := by
  rw [Path.equal_iff] at h
  simp [Path.Equal, h]

theorem any_equal_iff (paths : List Path) (p : Path) :
    paths.any (fun q => q.Equal p) = true ↔ ∃ q ∈ paths, q.Equal p = true := by
  simp [List.any_eq_true]

theorem Database.set_same (db : Database) (sum : Nat) (file : File) :
    (db.set sum file).Files sum = some file := by
  simp [Database.set]

theorem Database.set_other (db : Database) (sum k : Nat) (file : File) (h : k ≠ sum) :
    (db.set sum file).Files k = db.Files k := by
  simp [Database.set, h]

theorem Database.set_path (db : Database) (sum : Nat) (file : File) :
    (db.set sum file).path = db.path := rfl

/-- What `recordPath` leaves under `sum`, given that `file` is the record stored there. -/
theorem recordPath_spec (db : Database) (sum : Nat) (file : File) (path : Path)
    (hf : db.Files sum = some file) :
    ∃ g, (recordPath db sum file path).Files sum = some g ∧ g.Id = file.Id ∧
      g.Size = file.Size ∧ g.Paths.any (fun q => q.Equal path) = true ∧
      (g.Paths = file.Paths ∨
        (file.Paths.any (fun q => q.Equal path) = false ∧ g.Paths = file.Paths ++ [path])) ∧
      (∀ k, k ≠ sum → (recordPath db sum file path).Files k = db.Files k) ∧
      (recordPath db sum file path).path = db.path := by
  unfold recordPath
  by_cases h : file.Paths.any (fun q => q.Equal path) = true
  · rw [if_pos h]
    exact ⟨file, hf, rfl, rfl, h, Or.inl rfl, fun _ _ => rfl, rfl⟩
  · rw [if_neg h]
    refine ⟨{ file with Paths := file.Paths ++ [path] }, Database.set_same _ _ _, rfl, rfl, ?_,
      Or.inr ⟨by simpa using h, rfl⟩, fun k hk => Database.set_other _ _ _ _ hk, rfl⟩
    simp [Path.equal_refl]

/-- What a successful merge step leaves in the catalog. -/
theorem mergeStep_ok_spec {db db1 : Database} {sum : Nat} {size : Int} {path : Path}
    (h : mergeStep db sum size path = .ok db1) :
    ∃ g, db1.Files sum = some g ∧ g.Size = size ∧
      g.Paths.any (fun q => q.Equal path) = true ∧
      (g.Paths = db.pathsOf sum ∨
        ((db.pathsOf sum).any (fun q => q.Equal path) = false ∧
          g.Paths = db.pathsOf sum ++ [path])) ∧
      (∀ k, k ≠ sum → db1.Files k = db.Files k) ∧ db1.path = db.path := by
  unfold mergeStep at h
  cases hf : db.Files sum with
  | some file =>
    rw [hf] at h
    simp only at h
    by_cases hs : file.Size ≠ size
    · rw [if_pos hs] at h; cases h
    · rw [if_neg hs] at h
      have hs1 : file.Size = size := not_not.mp hs
      cases h
      obtain ⟨g, h1, _, h3, h4, h5, h6, h7⟩ := recordPath_spec db sum file path hf
      refine ⟨g, h1, by rw [h3, hs1], h4, ?_, h6, h7⟩
      simpa [Database.pathsOf, hf] using h5
  | none =>
    rw [hf] at h
    simp only at h
    cases h
    obtain ⟨g, h1, _, h3, h4, h5, h6, h7⟩ :=
      recordPath_spec (db.set sum ⟨sum, [], size⟩) sum ⟨sum, [], size⟩ path
        (Database.set_same _ _ _)
    refine ⟨g, h1, h3, h4, ?_, ?_, h7⟩
    · simpa [Database.pathsOf, hf] using h5
    · intro k hk
      rw [h6 k hk, Database.set_other _ _ _ _ hk]

/-- A merge step that finds the identity, the same size and an `Equal` path writes nothing. -/
theorem mergeStep_skip {db : Database} {sum : Nat} {size : Int} {path : Path} {file : File}
    (hf : db.Files sum = some file) (hs : file.Size = size)
    (hp : file.Paths.any (fun q => q.Equal path) = true) :
    mergeStep db sum size path = .ok db := by
  unfold mergeStep
  rw [hf]
  simp only
  rw [if_neg (not_not.mpr hs)]
  unfold recordPath
  rw [if_pos hp]

theorem mergeStep_preserves_noDup {db db1 : Database} {sum : Nat} {size : Int} {path : Path}
    (hinv : NoDupPaths db) (h : mergeStep db sum size path = .ok db1) : NoDupPaths db1 := by
  obtain ⟨g, h1, _, _, h4, h5, _⟩ := mergeStep_ok_spec h
  intro k file hk
  by_cases hks : k = sum
  · subst hks
    rw [h1] at hk
    cases hk
    have hold : (db.pathsOf k).Pairwise (fun p q => p.Equal q = false) := by
      unfold Database.pathsOf
      cases hf : db.Files k with
      | none => exact List.Pairwise.nil
      | some f => exact hinv k f hf
    rcases h4 with h4 | ⟨hnot, h4⟩
    · rw [h4]; exact hold
    · rw [h4, List.pairwise_append]
      refine ⟨hold, List.pairwise_singleton _ _, ?_⟩
      intro a ha b hb
      rw [List.mem_singleton] at hb
      subst hb
      rw [List.any_eq_false] at hnot
      simpa using hnot a ha
  · rw [h5 k hks] at hk
    exact hinv k file hk

theorem noDup_empty (filePath : String) : NoDupPaths (Database.empty filePath) := by
  intro k file hk
  simp [Database.empty] at hk

theorem mergeAll_preserves_noDup (obs : List (Nat × Int × Path)) :
    ∀ {db db1 : Database}, NoDupPaths db → mergeAll db obs = .ok db1 → NoDupPaths db1 := by
  induction obs with
  | nil =>
    intro db db1 hinv h
    simp only [mergeAll] at h
    cases h
    exact hinv
  | cons o rest ih =>
    intro db db1 hinv h
    obtain ⟨sum, size, path⟩ := o
    simp only [mergeAll] at h
    cases hm : mergeStep db sum size path with
    | error e => rw [hm] at h; cases h
    | ok db2 =>
      rw [hm] at h
      exact ih (mergeStep_preserves_noDup hinv hm) h

/-! ## The claims about the merge step -/

/-- C1 (merge correctness): when the merge step is run for `(h, s, p1)` and then for
`(h, s, p2)`, with `p1` and `p2` not `Equal` and neither run hitting a size conflict,
the catalog holds exactly one record under `h`, its `Size` is `s`, and its `Paths`
hold an entry `Equal` to `p1` and an entry `Equal` to `p2`. -/
theorem merge_two_locations (db db1 db2 : Database) (h : Nat) (s : Int) (p1 p2 : Path)
    (_hne : p1.Equal p2 = false)
    (h1 : mergeStep db h s p1 = .ok db1) (h2 : mergeStep db1 h s p2 = .ok db2) :
    ∃! file, db2.Files h = some file ∧ file.Size = s ∧
      (∃ q ∈ file.Paths, q.Equal p1 = true) ∧ (∃ q ∈ file.Paths, q.Equal p2 = true) := by
  obtain ⟨g1, a1, _, a3, _, _, _⟩ := mergeStep_ok_spec h1
  obtain ⟨g2, b1, b2, b3, b4, _, _⟩ := mergeStep_ok_spec h2
  have hp : db1.pathsOf h = g1.Paths := by simp [Database.pathsOf, a1]
  refine ⟨g2, ⟨b1, b2, ?_, (any_equal_iff _ _).mp b3⟩, ?_⟩
  · obtain ⟨q, hq, hqe⟩ := (any_equal_iff _ _).mp a3
    refine ⟨q, ?_, hqe⟩
    rcases b4 with b4 | ⟨_, b4⟩
    · rw [b4, hp]; exact hq
    · rw [b4, hp]; exact List.mem_append_left _ hq
  · rintro g ⟨hg, _⟩
    rw [b1] at hg
    exact (Option.some.inj hg).symm

/-- C2 (idempotence): after a merge step for `(h, s, p)` succeeded, running the same
merge step again succeeds and leaves the whole catalog unchanged; the `Paths` of the
record for `h` are the same list, of the same length. -/
theorem merge_idempotent (db db1 : Database) (h : Nat) (s : Int) (p : Path)
    (h1 : mergeStep db h s p = .ok db1) :
    mergeStep db1 h s p = .ok db1 ∧
      ∀ db2, mergeStep db1 h s p = .ok db2 →
        db2 = db1 ∧ db2.pathsOf h = db1.pathsOf h ∧
          (db2.pathsOf h).length = (db1.pathsOf h).length := by
  obtain ⟨g1, a1, a2, a3, _, _, _⟩ := mergeStep_ok_spec h1
  have hskip := mergeStep_skip a1 a2 a3
  refine ⟨hskip, ?_⟩
  intro db2 h2
  rw [hskip] at h2
  cases h2
  exact ⟨rfl, rfl, rfl⟩

/-- C7 (no duplicate locations): the predicate "no record holds two `Equal` paths at
distinct positions" is preserved by every merge step, holds in every catalog reached
from the empty catalog by a finite sequence of observations, and a merge step leaves
the paths of every identity as they were or with the new location added at the end. -/
theorem merge_no_duplicate_locations :
    (∀ (db db1 : Database) (h : Nat) (s : Int) (p : Path),
      NoDupPaths db → mergeStep db h s p = .ok db1 → NoDupPaths db1) ∧
    (∀ (filePath : String) (obs : List (Nat × Int × Path)) (db : Database),
      mergeAll (Database.empty filePath) obs = .ok db → NoDupPaths db) ∧
    (∀ (db db1 : Database) (h : Nat) (s : Int) (p : Path),
      mergeStep db h s p = .ok db1 →
        (db1.pathsOf h = db.pathsOf h ∨ db1.pathsOf h = db.pathsOf h ++ [p]) ∧
        ∀ k, k ≠ h → db1.pathsOf k = db.pathsOf k) := by
  refine ⟨fun db db1 h s p hinv hm => mergeStep_preserves_noDup hinv hm,
    fun filePath obs db hm => mergeAll_preserves_noDup obs (noDup_empty filePath) hm, ?_⟩
  intro db db1 h s p hm
  obtain ⟨g, a1, _, _, a4, a5, _⟩ := mergeStep_ok_spec hm
  constructor
  · have hp : db1.pathsOf h = g.Paths := by simp [Database.pathsOf, a1]
    rw [hp]
    rcases a4 with a4 | ⟨_, a4⟩
    · exact Or.inl a4
    · exact Or.inr a4
  · intro k hk
    simp [Database.pathsOf, a5 k hk]

/-- C8 (path equality is equality of the concatenation): `p.Equal q` holds exactly when
`p.Base+p.Dir+p.Name` and `q.Base+q.Dir+q.Name` are the same string; `Equal` is reflexive,
symmetric and transitive; it is not structural equality, since for every name `n` the
paths `{"ab", "", n}` and `{"a", "b", n}` are `Equal` with different fields; and once the
first is recorded under an identity, the merge step for the second writes nothing. -/
theorem equal_is_concatenation_equality :
    (∀ p q : Path, p.Equal q = true ↔
      p.Base ++ p.Dir ++ p.Name = q.Base ++ q.Dir ++ q.Name) ∧
    (∀ p : Path, p.Equal p = true) ∧
    (∀ p q : Path, p.Equal q = true → q.Equal p = true) ∧
    (∀ p q r : Path, p.Equal q = true → q.Equal r = true → p.Equal r = true) ∧
    (∀ n : String, (Path.mk "ab" "" n).Equal (Path.mk "a" "b" n) = true ∧
      Path.mk "ab" "" n ≠ Path.mk "a" "b" n) ∧
    (∀ (db db1 : Database) (h : Nat) (s : Int) (n : String),
      mergeStep db h s (Path.mk "ab" "" n) = .ok db1 →
        mergeStep db1 h s (Path.mk "a" "b" n) = .ok db1) := by
  refine ⟨Path.equal_iff, Path.equal_refl, ?_, ?_, ?_, ?_⟩
  · intro p q h
    rw [Path.equal_iff] at h ⊢
    exact h.symm
  · intro p q r h1 h2
    rw [Path.equal_iff] at h1 h2 ⊢
    exact h1.trans h2
  · intro n
    have he : (Path.mk "ab" "" n).Equal (Path.mk "a" "b" n) = true := by
      rw [Path.equal_iff]
      show "ab" ++ "" ++ n = "a" ++ "b" ++ n
      have : "ab" ++ "" = "a" ++ "b" := by decide
      rw [this]
    refine ⟨he, ?_⟩
    intro hc
    have hb : (Path.mk "ab" "" n).Base = (Path.mk "a" "b" n).Base := by rw [hc]
    revert hb
    show "ab" = "a" → False
    decide
  · intro db db1 h s n hm
    obtain ⟨g, a1, a2, a3, _, _, _⟩ := mergeStep_ok_spec hm
    have he : (Path.mk "ab" "" n).Equal (Path.mk "a" "b" n) = true := by
      rw [Path.equal_iff]
      show "ab" ++ "" ++ n = "a" ++ "b" ++ n
      have : "ab" ++ "" = "a" ++ "b" := by decide
      rw [this]
    refine mergeStep_skip a1 a2 ?_
    rw [any_equal_iff] at a3 ⊢
    obtain ⟨q, hq, hqe⟩ := a3
    exact ⟨q, hq, by rw [← Path.equal_congr_right he q]; exact hqe⟩

/-! ## The hasher -/

theorem hasherWrite_eq_fnv1 (data : List Nat) : ∀ hash, hasherWrite hash data = fnv1 data hash := by
  induction data with
  | nil => intro hash; rfl
  | cons b bs ih =>
    intro hash
    have h := ih (hashByte hash b)
    simp only [hasherWrite, List.foldl_cons] at h ⊢
    rw [h]
    rfl

theorem fnv1_append (a b : List Nat) : ∀ hash, fnv1 (a ++ b) hash = fnv1 b (fnv1 a hash) := by
  induction a with
  | nil => intro hash; rfl
  | cons x xs ih => intro hash; simp only [List.cons_append, fnv1]; exact ih _

theorem foldl_hasherWrite (chunks : List (List Nat)) :
    ∀ hash, chunks.foldl hasherWrite hash = fnv1 chunks.flatten hash := by
  induction chunks with
  | nil => intro hash; rfl
  | cons c cs ih =>
    intro hash
    simp only [List.foldl_cons, List.flatten_cons]
    rw [ih, fnv1_append, hasherWrite_eq_fnv1]

/-- The sum after `Reset` and `io.Copy` is the FNV-1 hash of the bytes that were read,
whatever the hasher held before and however the reads were cut into chunks. -/
theorem ioCopy_reset (hasher : Nat) (chunks : List (List Nat)) (readErr : Option String) :
    (ioCopy (hasherReset hasher) chunks readErr).1 = fnv1 chunks.flatten 14695981039346656037 := by
  simp only [ioCopy, hasherReset, foldl_hasherWrite]
  rfl

/-! ## Unfolding the walk -/

theorem importEntries_nil (getwd : Except String String) (dir base : String) (hasher : Nat)
    (σ : State) : importEntries getwd .nil dir base hasher σ = (.ok, σ) := rfl

theorem importEntries_file (getwd : Except String String) (f : FileEntry) (rest : Listing)
    (dir base : String) (hasher : Nat) (σ : State) :
    importEntries getwd (.file f rest) dir base hasher σ =
      match importFile f dir base hasher σ with
      | (.ok, hasher, σ) => importEntries getwd rest dir base hasher σ
      | (r, _, σ) => (r, σ) := rfl

theorem importEntries_dir (getwd : Except String String) (name : String) (calls : DirCalls)
    (sub rest : Listing) (dir base : String) (hasher : Nat) (σ : State) :
    importEntries getwd (.dir name calls sub rest) dir base hasher σ =
      match ImportDir getwd calls sub (Join dir name) base σ with
      | (.ok, σ) => importEntries getwd rest dir base hasher σ
      | r => r := rfl

theorem ImportDir_eq (getwd : Except String String) (calls : DirCalls) (subInfos : Listing)
    (dir base : String) (σ : State) :
    ImportDir getwd calls subInfos dir base σ =
      match openDir getwd calls dir base σ with
      | .error r => r
      | .ok (dir, base, σ) =>
        match importEntries getwd subInfos dir base offset64 σ with
        | (.ok, σ) => saveAndReturn calls σ
        | r => r := rfl

/-- A file entry whose loop body returns no error: the loop goes on with the rest. -/
theorem importEntries_file_ok {getwd : Except String String} {f : FileEntry} {rest : Listing}
    {dir base : String} {hasher hasher1 : Nat} {σ σ1 : State}
    (h : importFile f dir base hasher σ = (.ok, hasher1, σ1)) :
    importEntries getwd (.file f rest) dir base hasher σ =
      importEntries getwd rest dir base hasher1 σ1 := by
  rw [importEntries_file, h]

/-- What the loop body does for a file entry, case by case. -/
theorem importFile_cases (f : FileEntry) (dir base : String) (hasher : Nat) (σ : State) :
    (∃ e, f.openErr = some e ∧
      importFile f dir base hasher σ = (.err (.io e), hasher, σ.emit (.openFile dir f.name))) ∨
    (f.openErr = none ∧ ∃ e,
      mergeStep σ.db (fnv1 f.chunks.flatten 14695981039346656037) f.size
        (mkPath (Join dir f.name) base) = .error e ∧
      importFile f dir base hasher σ =
        (.err e, fnv1 f.chunks.flatten 14695981039346656037, σ.emit (.openFile dir f.name))) ∨
    (f.openErr = none ∧ ∃ db,
      mergeStep σ.db (fnv1 f.chunks.flatten 14695981039346656037) f.size
        (mkPath (Join dir f.name) base) = .ok db ∧
      importFile f dir base hasher σ =
        (.ok, fnv1 f.chunks.flatten 14695981039346656037,
          { db := db, log := σ.log ++ [.openFile dir f.name] })) := by
  have hk := ioCopy_reset hasher f.chunks f.readErr
  cases ho : f.openErr with
  | some e =>
    left
    exact ⟨e, rfl, by simp only [importFile, ho]⟩
  | none =>
    right
    cases hm : mergeStep σ.db (fnv1 f.chunks.flatten 14695981039346656037) f.size
        (mkPath (Join dir f.name) base) with
    | error e =>
      left
      refine ⟨rfl, e, rfl, ?_⟩
      simp only [importFile, ho]
      rw [hk]
      simp only [State.emit]
      rw [hm]
    | ok db =>
      right
      refine ⟨rfl, db, rfl, ?_⟩
      simp only [importFile, ho]
      rw [hk]
      simp only [State.emit]
      rw [hm]

theorem openDir_ok {getwd : Except String String} {calls : DirCalls} {dir base : String}
    {σ σ1 : State} {d b : String} (h : openDir getwd calls dir base σ = .ok (d, b, σ1)) :
    σ1 = σ.emit (.enter d) := by
  unfold openDir at h
  split at h
  · cases h
  · split at h
    · cases h
    · simp only at h
      split at h
      · cases h
      · split at h
        · cases h
        · split at h
          · cases h
          · split at h
            · cases h
            · cases h; rfl

theorem saveAndReturn_ok {calls : DirCalls} {σ σ1 : State}
    (h : saveAndReturn calls σ = (.ok, σ1)) : σ1 = σ.emit (.save σ.db) := by
  unfold saveAndReturn at h
  simp only at h
  split at h
  · cases h
  · cases h; rfl

/-- A call of `ImportDir` that returns `nil` opened its directory, ran the loop to
the end without error, and saved. -/
theorem ImportDir_ok {getwd : Except String String} {calls : DirCalls} {subInfos : Listing}
    {dir base : String} {σ σ3 : State}
    (h : ImportDir getwd calls subInfos dir base σ = (.ok, σ3)) :
    ∃ d b σ1 σ2, openDir getwd calls dir base σ = .ok (d, b, σ1) ∧
      importEntries getwd subInfos d b offset64 σ1 = (.ok, σ2) ∧
      saveAndReturn calls σ2 = (.ok, σ3) := by
  rw [ImportDir_eq] at h
  cases ho : openDir getwd calls dir base σ with
  | error r =>
    exfalso
    rw [ho] at h
    simp only at h
    subst h
    unfold openDir at ho
    split at ho
    · cases ho
    · split at ho
      · cases ho
      · simp only at ho
        split at ho
        · cases ho
        · split at ho
          · cases ho
          · split at ho
            · cases ho
            · split at ho
              · cases ho
              · cases ho
  | ok v =>
    obtain ⟨d, b, σ1⟩ := v
    rw [ho] at h
    simp only at h
    rcases hl : importEntries getwd subInfos d b offset64 σ1 with ⟨o, σ2⟩
    rw [hl] at h
    cases o with
    | ok => exact ⟨d, b, σ1, σ2, rfl, hl, h⟩
    | err e => cases h
    | fatal m => cases h

/-! ## The order of the walk -/

theorem postOrder_count_save (l : Listing) : (postOrder l).count .save = dirCount l := by
  induction l with
  | nil => rfl
  | file f rest ih => simp [postOrder, dirCount, ih]
  | dir name calls sub rest ihs ihr =>
    simp [postOrder, dirCount, List.count_cons, ihs, ihr]
    omega

theorem postOrder_count_enter (l : Listing) : (postOrder l).count .enter = dirCount l := by
  induction l with
  | nil => rfl
  | file f rest ih => simp [postOrder, dirCount, ih]
  | dir name calls sub rest ihs ihr =>
    simp [postOrder, dirCount, List.count_cons, ihs, ihr]
    omega

/-- The events of a loop that ends without error are the post-order of its listing. -/
theorem importEntries_log (getwd : Except String String) (l : Listing) :
    ∀ (dir base : String) (hasher : Nat) (σ σ1 : State),
      importEntries getwd l dir base hasher σ = (.ok, σ1) →
      ∃ evs, σ1.log = σ.log ++ evs ∧ evs.map Event.step = postOrder l := by
  induction l with
  | nil =>
    intro dir base hasher σ σ1 h
    rw [importEntries_nil] at h
    cases h
    exact ⟨[], by simp, rfl⟩
  | file f rest ih =>
    intro dir base hasher σ σ1 h
    rcases importFile_cases f dir base hasher σ with ⟨e, _, hf⟩ | ⟨_, e, _, hf⟩ | ⟨_, db, _, hf⟩
    · rw [importEntries_file, hf] at h; cases h
    · rw [importEntries_file, hf] at h; cases h
    · rw [importEntries_file_ok hf] at h
      obtain ⟨evs, h1, h2⟩ := ih _ _ _ _ _ h
      refine ⟨.openFile dir f.name :: evs, ?_, ?_⟩
      · rw [h1]; simp
      · simp [postOrder, Event.step, h2]
  | dir name calls sub rest ihs ihr =>
    intro dir base hasher σ σ1 h
    rw [importEntries_dir] at h
    rcases hd : ImportDir getwd calls sub (Join dir name) base σ with ⟨o, σ2⟩
    rw [hd] at h
    cases o with
    | err e => cases h
    | fatal m => cases h
    | ok =>
      simp only at h
      obtain ⟨d, b, τ1, τ2, ho, hl, hs⟩ := ImportDir_ok hd
      have e1 := openDir_ok ho
      have e3 := saveAndReturn_ok hs
      obtain ⟨evs, h1, h2⟩ := ihs _ _ _ _ _ hl
      obtain ⟨evr, h3, h4⟩ := ihr _ _ _ _ _ h
      refine ⟨(.enter d :: evs ++ [.save τ2.db]) ++ evr, ?_, ?_⟩
      · rw [h3, e3]
        simp only [State.emit]
        rw [h1, e1]
        simp [State.emit]
      · simp [postOrder, Event.step, h2, h4]

/-- C10 (persist once per directory, after its children): when `ImportDir` returns
`nil`, the events it added to the log are: the directory entered, then the post-order
of its listing (each file in turn, each subdirectory as enter, its own post-order,
save), then one final save. The saves number one per directory of the tree, the root
included, as many as directories entered, and the last event is the save of the
catalog as `ImportDir` leaves it. -/
theorem save_once_per_directory (getwd : Except String String) (calls : DirCalls)
    (subInfos : Listing) (dir base : String) (σ σ1 : State)
    (h : ImportDir getwd calls subInfos dir base σ = (.ok, σ1)) :
    ∃ evs, σ1.log = σ.log ++ evs ∧
      evs.map Event.step = .enter :: postOrder subInfos ++ [.save] ∧
      (evs.map Event.step).count .save = dirCount subInfos + 1 ∧
      (evs.map Event.step).count .enter = dirCount subInfos + 1 ∧
      evs.getLast? = some (.save σ1.db) := by
  obtain ⟨d, b, τ1, τ2, ho, hl, hs⟩ := ImportDir_ok h
  have e1 := openDir_ok ho
  have e3 := saveAndReturn_ok hs
  obtain ⟨evs, h1, h2⟩ := importEntries_log getwd subInfos _ _ _ _ _ hl
  have hsteps : ((Event.enter d :: evs) ++ [Event.save τ2.db]).map Event.step =
      .enter :: postOrder subInfos ++ [.save] := by
    simp [Event.step, h2]
  refine ⟨(.enter d :: evs) ++ [.save τ2.db], ?_, hsteps, ?_, ?_, ?_⟩
  · rw [e3]
    simp only [State.emit]
    rw [h1, e1]
    simp [State.emit]
  · rw [hsteps]
    simp [List.count_cons, postOrder_count_save]
  · rw [hsteps]
    simp [List.count_cons, postOrder_count_enter]
  · rw [e3]
    show ((Event.enter d :: evs) ++ [Event.save τ2.db]).getLast? = some (Event.save τ2.db)
    rw [List.getLast?_append]
    rfl

/-! ## Errors stop the walk -/

/-- An error returned by the loop body at a file the walk has reached is what the
whole loop returns, with the state the loop body left. -/
theorem reach_error {getwd : Except String String} {f : FileEntry} {l : Listing}
    {dir base : String} {hasher : Nat} {σ : State} {d b : String} {h : Nat} {τ : State}
    (hreach : Reach getwd f l dir base hasher σ d b h τ)
    {e : Error} {h1 : Nat} {τ1 : State}
    (herr : importFile f d b h τ = (.err e, h1, τ1)) :
    importEntries getwd l dir base hasher σ = (.err e, τ1) := by
  induction hreach with
  | here rest dir base hasher σ =>
    rw [importEntries_file, herr]
  | afterFile g rest dir base hasher hasher1 σ σ1 d b h τ hg _ ih =>
    rw [importEntries_file_ok hg]
    exact ih herr
  | afterDir name calls sub rest dir base hasher σ σ1 d b h τ hd _ ih =>
    rw [importEntries_dir, hd]
    exact ih herr
  | inDir name calls sub rest dir base hasher σ σ1 dir1 base1 d b h τ ho _ ih =>
    rw [importEntries_dir, ImportDir_eq, ho]
    simp only
    rw [ih herr]

/-- C3 (conflict detection): when the walk started by `ImportDir` reaches a file that
opens and whose computed identity `sum` is already recorded with a size other than
the file's, `ImportDir` returns the conflict error; the catalog it leaves is the one
from before that file was examined, and the log is the one from before with only the
opening of that file added: no later entry of this or an enclosing directory is
processed and no `Save` is performed after the conflict. -/
theorem conflict_aborts (getwd : Except String String) (calls : DirCalls)
    (subInfos : Listing) (dir base : String) (σ σ1 : State) (dir1 base1 : String)
    (f : FileEntry) (d b : String) (h : Nat) (τ : State) (sum : Nat) (file : File)
    (hopen : openDir getwd calls dir base σ = .ok (dir1, base1, σ1))
    (hreach : Reach getwd f subInfos dir1 base1 offset64 σ1 d b h τ)
    (hf : f.openErr = none)
    (hsum : (ioCopy (hasherReset h) f.chunks f.readErr).1 = sum)
    (hrec : τ.db.Files sum = some file)
    (hsize : file.Size ≠ f.size) :
    ImportDir getwd calls subInfos dir base σ =
      (.err (.conflict sum f.size file),
        { db := τ.db, log := τ.log ++ [.openFile d f.name] }) := by
  have hk : sum = fnv1 f.chunks.flatten 14695981039346656037 := by
    rw [← hsum, ioCopy_reset]
  have hm : mergeStep τ.db sum f.size (mkPath (Join d f.name) b) =
      .error (.conflict sum f.size file) := by
    unfold mergeStep
    rw [hrec]
    simp only
    rw [if_pos hsize]
  rcases importFile_cases f d b h τ with ⟨e, he, _⟩ | ⟨_, e, hme, hfile⟩ | ⟨_, db, hme, _⟩
  · rw [hf] at he; cases he
  · rw [← hk, hm] at hme
    cases hme
    rw [ImportDir_eq, hopen]
    simp only
    rw [reach_error hreach hfile]
    rfl
  · rw [← hk, hm] at hme
    cases hme

/-! ## `filepath.Clean` on a clean rooted path extended by one name -/

theorem splitSlash_ne_nil (cs : List Char) : splitSlash cs ≠ [] := by
  cases cs with
  | nil => simp [splitSlash]
  | cons c cs =>
    unfold splitSlash
    split
    · simp
    · split <;> simp

theorem splitSlash_plain (x : List Char) (hx : '/' ∉ x) : splitSlash x = [x] := by
  induction x with
  | nil => rfl
  | cons c cs ih =>
    have hc : c ≠ '/' := fun h => hx (by simp [h])
    have hcs : '/' ∉ cs := fun h => hx (List.mem_cons_of_mem _ h)
    rw [splitSlash, if_neg hc, ih hcs]

theorem splitSlash_append (x r : List Char) (hx : '/' ∉ x) :
    splitSlash (x ++ '/' :: r) = x :: splitSlash r := by
  induction x with
  | nil => simp [splitSlash]
  | cons c cs ih =>
    have hc : c ≠ '/' := fun h => hx (by simp [h])
    have hcs : '/' ∉ cs := fun h => hx (List.mem_cons_of_mem _ h)
    rw [List.cons_append, splitSlash, if_neg hc, ih hcs]

theorem splitSlash_joinSlash (xs : List (List Char)) (hne : xs ≠ [])
    (hxs : ∀ x ∈ xs, '/' ∉ x) : splitSlash (joinSlash xs) = xs := by
  induction xs with
  | nil => exact absurd rfl hne
  | cons x rest ih =>
    cases rest with
    | nil => exact splitSlash_plain x (hxs x (by simp))
    | cons y rest =>
      rw [joinSlash, splitSlash_append x _ (hxs x (by simp))]
      rw [ih (by simp) (fun z hz => hxs z (List.mem_cons_of_mem _ hz))]

theorem joinSlash_append_singleton (xs : List (List Char)) (n : List Char) (hne : xs ≠ []) :
    joinSlash (xs ++ [n]) = joinSlash xs ++ '/' :: n := by
  induction xs with
  | nil => exact absurd rfl hne
  | cons x rest ih =>
    cases rest with
    | nil => simp [joinSlash]
    | cons y rest =>
      have h := ih (by simp)
      rw [List.cons_append] at h
      show x ++ '/' :: joinSlash (y :: (rest ++ [n])) = (x ++ '/' :: joinSlash (y :: rest)) ++ '/' :: n
      rw [h]
      simp

theorem splitSlash_noSlash (cs : List Char) : ∀ x ∈ splitSlash cs, '/' ∉ x := by
  induction cs with
  | nil => intro x hx; simp [splitSlash] at hx; simp [hx]
  | cons c cs ih =>
    intro x hx
    unfold splitSlash at hx
    by_cases hc : c = '/'
    · rw [if_pos hc] at hx
      rcases List.mem_cons.mp hx with h | h
      · simp [h]
      · exact ih x h
    · rw [if_neg hc] at hx
      cases hs : splitSlash cs with
      | nil => exact absurd hs (splitSlash_ne_nil cs)
      | cons y ys =>
        rw [hs] at hx ih
        simp only at hx
        rcases List.mem_cons.mp hx with h | h
        · rw [h]
          intro hm
          rcases List.mem_cons.mp hm with h1 | h1
          · exact hc h1.symm
          · exact ih y (by simp) h1
        · exact ih x (List.mem_cons_of_mem _ h)

theorem cleanStep_plain (out : List (List Char)) (elem : List Char)
    (hout : ∀ x ∈ out, PlainName x) (he : '/' ∉ elem) :
    ∀ x ∈ cleanStep true out elem, PlainName x := by
  unfold cleanStep
  by_cases h1 : elem = [] ∨ elem = ['.']
  · rw [if_pos h1]; exact hout
  · rw [if_neg h1]
    by_cases h2 : elem = ['.', '.']
    · rw [if_pos h2]
      split
      · intro x hx
        exact hout x (List.dropLast_subset _ hx)
      · simpa using hout
    · rw [if_neg h2]
      intro x hx
      rcases List.mem_append.mp hx with h | h
      · exact hout x h
      · rw [List.mem_singleton] at h
        subst h
        exact ⟨fun h => h1 (Or.inl h), he, fun h => h1 (Or.inr h), h2⟩

theorem foldl_cleanStep_plain (comps : List (List Char)) :
    ∀ out : List (List Char), (∀ x ∈ out, PlainName x) → (∀ x ∈ comps, '/' ∉ x) →
      ∀ x ∈ comps.foldl (cleanStep true) out, PlainName x := by
  induction comps with
  | nil => intro out hout _; simpa using hout
  | cons c cs ih =>
    intro out hout hc
    rw [List.foldl_cons]
    exact ih _ (cleanStep_plain out c hout (hc c (by simp)))
      (fun x hx => hc x (List.mem_cons_of_mem _ hx))

theorem cleanStep_of_plain (rooted : Bool) (out : List (List Char)) (elem : List Char)
    (he : PlainName elem) : cleanStep rooted out elem = out ++ [elem] := by
  obtain ⟨h1, _, h3, h4⟩ := he
  unfold cleanStep
  rw [if_neg (by simp [h1, h3]), if_neg h4]

theorem foldl_cleanStep_of_plain (rooted : Bool) (comps : List (List Char)) :
    ∀ out : List (List Char), (∀ x ∈ comps, PlainName x) →
      comps.foldl (cleanStep rooted) out = out ++ comps := by
  induction comps with
  | nil => intro out _; simp
  | cons c cs ih =>
    intro out hc
    rw [List.foldl_cons, cleanStep_of_plain rooted out c (hc c (by simp)),
      ih _ (fun x hx => hc x (List.mem_cons_of_mem _ hx))]
    simp

theorem isAbs_data {path : String} (h : IsAbs path = true) :
    ∃ rest, path.data = '/' :: rest := by
  unfold IsAbs at h
  cases hd : path.data with
  | nil => rw [hd] at h; simp at h
  | cons c cs =>
    rw [hd] at h
    simp at h
    exact ⟨cs, by rw [h]⟩

theorem Clean_rooted (path : String) (rest : List Char) (h : path.data = '/' :: rest) :
    Clean path = String.mk ('/' :: joinSlash ((splitSlash rest).foldl (cleanStep true) [])) := by
  have hne : path ≠ "" := by
    intro hp
    rw [hp] at h
    cases h
  unfold Clean
  rw [if_neg hne]
  simp only [h, List.head?_cons, decide_True, if_true]
  congr 2

/-- Appending one plain name to a clean rooted path other than the root gives a clean path. -/
theorem Clean_extend (d n : String) (habs : IsAbs d = true) (hclean : Clean d = d)
    (hroot : d ≠ "/") (hn : PlainName n.data) : Clean (d ++ "/" ++ n) = d ++ "/" ++ n := by
  obtain ⟨rest, hd⟩ := isAbs_data habs
  have hc := Clean_rooted d rest hd
  rw [hclean] at hc
  have hrest : rest = joinSlash ((splitSlash rest).foldl (cleanStep true) []) := by
    have h1 := congrArg String.data hc
    rw [hd] at h1
    exact List.tail_eq_of_cons_eq h1
  have hplain : ∀ x ∈ (splitSlash rest).foldl (cleanStep true) [], PlainName x :=
    foldl_cleanStep_plain _ [] (by simp) (splitSlash_noSlash rest)
  generalize (splitSlash rest).foldl (cleanStep true) [] = out at hrest hplain
  have hout : out ≠ [] := by
    intro ho
    rw [ho] at hrest
    apply hroot
    apply String.ext
    rw [hd, hrest]
    rfl
  have hdata : (d ++ "/" ++ n).data = '/' :: joinSlash (out ++ [n.data]) := by
    rw [joinSlash_append_singleton out n.data hout, ← hrest]
    simp [String.data_append, hd]
  have hall : ∀ x ∈ out ++ [n.data], PlainName x := by
    intro x hx
    rcases List.mem_append.mp hx with h | h
    · exact hplain x h
    · rw [List.mem_singleton] at h; rw [h]; exact hn
  rw [Clean_rooted _ _ hdata,
    splitSlash_joinSlash _ (by simp) (fun x hx => (hall x hx).2.1),
    foldl_cleanStep_of_plain true _ [] hall]
  apply String.ext
  rw [hdata]
  rfl

theorem Join_extend (d n : String) (habs : IsAbs d = true) (hclean : Clean d = d)
    (hroot : d ≠ "/") (hn : PlainName n.data) : Join d n = d ++ "/" ++ n := by
  have hne : d ≠ "" := by
    intro h
    rw [h] at habs
    exact absurd habs (by decide)
  unfold Join
  rw [if_pos hne]
  exact Clean_extend d n habs hclean hroot hn

theorem isAbs_extend (d n : String) (habs : IsAbs d = true) : IsAbs (d ++ "/" ++ n) = true := by
  obtain ⟨rest, hd⟩ := isAbs_data habs
  unfold IsAbs
  simp [String.data_append, hd]

theorem extend_ne_root (d n : String) (habs : IsAbs d = true) : d ++ "/" ++ n ≠ "/" := by
  obtain ⟨rest, hd⟩ := isAbs_data habs
  intro h
  have h1 := congrArg String.data h
  simp [String.data_append, hd] at h1

theorem Abs_of_clean (getwd : Except String String) (d : String) (habs : IsAbs d = true)
    (hclean : Clean d = d) : Abs getwd d = .ok d := by
  unfold Abs
  rw [if_pos habs, hclean]

/-- The path value built for `base/tail`: the base is trimmed off and the rest split. -/
theorem mkPath_extend (base tail : String) :
    mkPath (base ++ tail) base =
      { Base := base, Dir := (Split tail).1, Name := (Split tail).2 } := by
  have ht : TrimPrefix (base ++ tail) base = tail := by
    unfold TrimPrefix
    have hp : base.data.isPrefixOf (base ++ tail).data = true := by
      rw [String.data_append, List.isPrefixOf_iff_prefix]
      exact List.prefix_append _ _
    rw [if_pos hp]
    apply String.ext
    simp [String.data_append]
  unfold mkPath
  rw [ht]

/-! ## The end-to-end example -/

theorem openDir_okDir (getwd : Except String String) (d b : String) (σ : State)
    (hd : IsAbs d = true) (hdc : Clean d = d) (hb : IsAbs b = true) (hbc : Clean b = b) :
    openDir getwd okDir d b σ = .ok (d, b, σ.emit (.enter d)) := by
  unfold openDir
  rw [Abs_of_clean getwd d hd hdc, Abs_of_clean getwd b hb hbc]
  rfl

theorem importFile_ok {f : FileEntry} {dir base : String} {hasher : Nat} {σ : State}
    {db : Database} (ho : f.openErr = none)
    (hm : mergeStep σ.db (fnv1 f.chunks.flatten 14695981039346656037) f.size
      (mkPath (Join dir f.name) base) = .ok db) :
    importFile f dir base hasher σ =
      (.ok, fnv1 f.chunks.flatten 14695981039346656037,
        { db := db, log := σ.log ++ [.openFile dir f.name] }) := by
  rcases importFile_cases f dir base hasher σ with ⟨e, he, _⟩ | ⟨_, e, hme, _⟩ | ⟨_, db1, hme, h⟩
  · rw [ho] at he; cases he
  · rw [hm] at hme; cases hme
  · rw [hm] at hme
    cases hme
    exact h

theorem mergeStep_new {db : Database} {sum : Nat} (size : Int) (path : Path)
    (hf : db.Files sum = none) :
    mergeStep db sum size path =
      .ok ((db.set sum ⟨sum, [], size⟩).set sum ⟨sum, [path], size⟩) := by
  unfold mergeStep
  rw [hf]
  rfl

theorem mergeStep_append {db : Database} {sum : Nat} {size : Int} {path : Path} {file : File}
    (hf : db.Files sum = some file) (hs : file.Size = size)
    (hp : file.Paths.any (fun q => q.Equal path) = false) :
    mergeStep db sum size path =
      .ok (db.set sum { file with Paths := file.Paths ++ [path] }) := by
  unfold mergeStep
  rw [hf]
  simp only
  rw [if_neg (not_not.mpr hs)]
  unfold recordPath
  rw [if_neg (by simp [hp])]

theorem plain_a_txt : PlainName "a.txt".data := by
  unfold PlainName
  decide

theorem plain_b_txt : PlainName "b.txt".data := by
  unfold PlainName
  decide

theorem plain_sub : PlainName "sub".data := by
  unfold PlainName
  decide

/-- The two locations of the example are not `Equal`, whatever the root. -/
theorem example_locations_differ (root : String) :
    (Path.mk root "/" "a.txt").Equal (Path.mk root "/sub/" "b.txt") = false := by
  rw [Bool.eq_false_iff]
  intro h
  rw [Path.equal_iff] at h
  have h1 := congrArg String.data h
  simp only [String.data_append, List.append_assoc] at h1
  have h2 := List.append_cancel_left h1
  revert h2
  decide

/-- The first import of the example: `root/a.txt` into a catalog without a record for
its identity. -/
theorem import_first (getwd : Except String String) (root : String)
    (chunks : List (List Nat)) (σ : State)
    (habs : IsAbs root = true) (hclean : Clean root = root) (hroot : root ≠ "/")
    (hnew : σ.db.Files (fnv1 chunks.flatten 14695981039346656037) = none) :
    ImportDir getwd okDir (.file ⟨"a.txt", 100, none, chunks, none⟩ .nil) root root σ =
      (.ok,
        (State.mk
          ((σ.db.set (fnv1 chunks.flatten 14695981039346656037)
              ⟨fnv1 chunks.flatten 14695981039346656037, [], 100⟩).set
            (fnv1 chunks.flatten 14695981039346656037)
            ⟨fnv1 chunks.flatten 14695981039346656037, [⟨root, "/", "a.txt"⟩], 100⟩)
          (σ.log ++ [.enter root] ++ [.openFile root "a.txt"])).emit
          (.save
            ((σ.db.set (fnv1 chunks.flatten 14695981039346656037)
              ⟨fnv1 chunks.flatten 14695981039346656037, [], 100⟩).set
            (fnv1 chunks.flatten 14695981039346656037)
            ⟨fnv1 chunks.flatten 14695981039346656037, [⟨root, "/", "a.txt"⟩], 100⟩))) := by
  have hj : Join root "a.txt" = root ++ "/a.txt" := by
    rw [Join_extend root "a.txt" habs hclean hroot plain_a_txt, String.append_assoc]
    rfl
  have hp : mkPath (root ++ "/a.txt") root = ⟨root, "/", "a.txt"⟩ := by
    rw [mkPath_extend]
    rfl
  rw [ImportDir_eq, openDir_okDir getwd root root σ habs hclean habs hclean]
  simp only
  rw [importEntries_file, importFile_ok rfl (by
    show mergeStep σ.db _ 100 (mkPath (Join root "a.txt") root) = _
    rw [hj, hp]
    exact mergeStep_new 100 _ hnew)]
  rfl

/-- The second import of the example: `root/sub/b.txt` with the bytes of a file already
recorded at `root/a.txt`. -/
theorem import_second (getwd : Except String String) (root : String)
    (chunks : List (List Nat)) (σ : State) (sum : Nat)
    (habs : IsAbs root = true) (hclean : Clean root = root) (hroot : root ≠ "/")
    (hsum : fnv1 chunks.flatten 14695981039346656037 = sum)
    (hold : σ.db.Files sum = some ⟨sum, [⟨root, "/", "a.txt"⟩], 100⟩) :
    (secondImport getwd root chunks σ).1 = .ok ∧
    (secondImport getwd root chunks σ).2.db =
      σ.db.set sum ⟨sum, [⟨root, "/", "a.txt"⟩, ⟨root, "/sub/", "b.txt"⟩], 100⟩ := by
  have hj : Join root "sub" = root ++ "/" ++ "sub" :=
    Join_extend root "sub" habs hclean hroot plain_sub
  have hdabs : IsAbs (root ++ "/" ++ "sub") = true := isAbs_extend root "sub" habs
  have hdclean : Clean (root ++ "/" ++ "sub") = root ++ "/" ++ "sub" :=
    Clean_extend root "sub" habs hclean hroot plain_sub
  have hj2 : Join (root ++ "/" ++ "sub") "b.txt" = root ++ "/sub/b.txt" := by
    rw [Join_extend _ "b.txt" hdabs hdclean (extend_ne_root root "sub" habs) plain_b_txt]
    simp only [String.append_assoc]
    rfl
  have hp : mkPath (root ++ "/sub/b.txt") root = ⟨root, "/sub/", "b.txt"⟩ := by
    rw [mkPath_extend]
    rfl
  have hm : mergeStep (σ.emit (.enter root)).db
      (fnv1 (exampleFileB chunks).chunks.flatten 14695981039346656037)
      (exampleFileB chunks).size
      (mkPath (Join (root ++ "/" ++ "sub") (exampleFileB chunks).name) root) =
      .ok (σ.db.set sum ⟨sum, [⟨root, "/", "a.txt"⟩, ⟨root, "/sub/", "b.txt"⟩], 100⟩) := by
    show mergeStep σ.db (fnv1 chunks.flatten 14695981039346656037) 100
      (mkPath (Join (root ++ "/" ++ "sub") "b.txt") root) = _
    rw [hj2, hp, hsum]
    exact mergeStep_append hold rfl (by simp [example_locations_differ])
  have hfile := @importFile_ok (exampleFileB chunks) (root ++ "/" ++ "sub") root offset64
    ((σ.emit (.enter root)).emit (.enter (root ++ "/" ++ "sub"))) _ rfl hm
  unfold secondImport
  rw [ImportDir_eq, openDir_okDir getwd root root σ habs hclean habs hclean]
  simp only
  rw [importEntries_dir, hj, ImportDir_eq,
    openDir_okDir getwd _ root _ hdabs hdclean habs hclean]
  simp only
  rw [importEntries_file, hfile]
  exact ⟨rfl, rfl⟩

/-- C4, as the code has it (end-to-end path construction): for every absolute, cleaned
root path other than the filesystem root, importing `root/a.txt` (100 bytes) with base
`root` into the empty catalog returns `nil` and leaves exactly one record, under the
FNV-1 hash of the content, with `Size` 100 and `Paths` `[{root, "/", "a.txt"}]`;
importing `root/sub/b.txt` with the same bytes afterwards returns `nil`, appends
`{root, "/sub/", "b.txt"}` to that record, and leaves its `Id`, its `Size` and every
other identity as they were. The directory part keeps the separator that follows the
base. -/
theorem example_paths (getwd : Except String String) (root dbPath : String)
    (chunksA chunksB : List (List Nat))
    (habs : IsAbs root = true) (hclean : Clean root = root) (hroot : root ≠ "/")
    (_hlen : chunksA.flatten.length = 100) (hsame : chunksB.flatten = chunksA.flatten) :
    (firstImport getwd root dbPath chunksA).1 = .ok ∧
    (∀ k, (firstImport getwd root dbPath chunksA).2.db.Files k =
      if k = fnv1 chunksA.flatten 14695981039346656037 then
        some ⟨fnv1 chunksA.flatten 14695981039346656037, [⟨root, "/", "a.txt"⟩], 100⟩
      else none) ∧
    (secondImport getwd root chunksB (firstImport getwd root dbPath chunksA).2).1 = .ok ∧
    (∀ k, (secondImport getwd root chunksB (firstImport getwd root dbPath chunksA).2).2.db.Files k =
      if k = fnv1 chunksA.flatten 14695981039346656037 then
        some ⟨fnv1 chunksA.flatten 14695981039346656037,
          [⟨root, "/", "a.txt"⟩, ⟨root, "/sub/", "b.txt"⟩], 100⟩
      else none) := by
  have h1 := import_first getwd root chunksA ⟨Database.empty dbPath, []⟩ habs hclean hroot rfl
  have hfirst : ∀ k, (firstImport getwd root dbPath chunksA).2.db.Files k =
      if k = fnv1 chunksA.flatten 14695981039346656037 then
        some ⟨fnv1 chunksA.flatten 14695981039346656037, [⟨root, "/", "a.txt"⟩], 100⟩
      else none := by
    intro k
    unfold firstImport exampleFileA
    rw [h1]
    by_cases hk : k = fnv1 chunksA.flatten 14695981039346656037
    · simp [State.emit, Database.set, hk]
    · simp [State.emit, Database.set, Database.empty, hk]
  have hrec := hfirst (fnv1 chunksA.flatten 14695981039346656037)
  rw [if_pos rfl] at hrec
  obtain ⟨h2, h3⟩ := import_second getwd root chunksB
    (firstImport getwd root dbPath chunksA).2 _ habs hclean hroot
    (by rw [hsame]) hrec
  refine ⟨?_, hfirst, h2, ?_⟩
  · unfold firstImport exampleFileA
    rw [h1]
  · intro k
    rw [h3]
    by_cases hk : k = fnv1 chunksA.flatten 14695981039346656037
    · simp [Database.set, hk]
    · simp [Database.set, hk, hfirst k]

/-- C4 as the specification words it fails at the root `/r`: the directory part of the
location recorded for `/r/a.txt` is `"/"`, not `""`. -/
theorem example_paths_counterexample :
    (firstImport (.ok "/") "/r" "/home/reus/.songcollect" [List.replicate 100 0]).1 = .ok ∧
    (firstImport (.ok "/") "/r" "/home/reus/.songcollect" [List.replicate 100 0]).2.db.Files
        2287932734527865717 =
      some ⟨2287932734527865717, [⟨"/r", "/", "a.txt"⟩], 100⟩ ∧
    (firstImport (.ok "/") "/r" "/home/reus/.songcollect" [List.replicate 100 0]).2.db.Files
        (fnv1 (List.replicate 100 0) 14695981039346656037) ≠
      some ⟨fnv1 (List.replicate 100 0) 14695981039346656037, [⟨"/r", "", "a.txt"⟩], 100⟩ := by
  set_option maxRecDepth 100000 in decide

/-- The end-to-end example at the root `/r` with a file of 100 zero bytes. -/
theorem example_paths_witness :
    (firstImport (.ok "/") "/r" "db" [List.replicate 100 0]).1 = .ok ∧
    (∀ k, (firstImport (.ok "/") "/r" "db" [List.replicate 100 0]).2.db.Files k =
      if k = fnv1 [List.replicate 100 0].flatten 14695981039346656037 then
        some ⟨fnv1 [List.replicate 100 0].flatten 14695981039346656037,
          [⟨"/r", "/", "a.txt"⟩], 100⟩
      else none) ∧
    (secondImport (.ok "/") "/r" [List.replicate 50 0, List.replicate 50 0]
      (firstImport (.ok "/") "/r" "db" [List.replicate 100 0]).2).1 = .ok ∧
    (∀ k, (secondImport (.ok "/") "/r" [List.replicate 50 0, List.replicate 50 0]
        (firstImport (.ok "/") "/r" "db" [List.replicate 100 0]).2).2.db.Files k =
      if k = fnv1 [List.replicate 100 0].flatten 14695981039346656037 then
        some ⟨fnv1 [List.replicate 100 0].flatten 14695981039346656037,
          [⟨"/r", "/", "a.txt"⟩, ⟨"/r", "/sub/", "b.txt"⟩], 100⟩
      else none) :=
  example_paths (.ok "/") "/r" "db" [List.replicate 100 0]
    [List.replicate 50 0, List.replicate 50 0] (by decide) (by decide) (by decide)
    (by decide) (by decide)

/-! ## The remaining claims about the walk -/

/-- What a loop body that returns no error has done. -/
theorem importFile_ok_spec {f : FileEntry} {dir base : String} {hasher hasher1 : Nat}
    {σ σ1 : State} (h : importFile f dir base hasher σ = (.ok, hasher1, σ1)) :
    hasher1 = fnv1 f.chunks.flatten 14695981039346656037 ∧
    mergeStep σ.db (fnv1 f.chunks.flatten 14695981039346656037) f.size
      (mkPath (Join dir f.name) base) = .ok σ1.db := by
  rcases importFile_cases f dir base hasher σ with ⟨e, _, hf⟩ | ⟨_, e, _, hf⟩ | ⟨_, db, hm, hf⟩
  · rw [hf] at h; cases h
  · rw [hf] at h; cases h
  · rw [hf] at h
    cases h
    exact ⟨rfl, hm⟩

/-- C9 (content identity depends only on content): when the loop body records a file
whose bytes were read to the end, the loop goes on with the next entry, and the key of
the record is the 64-bit FNV-1 hash of the file's bytes, whatever the shared hasher
held before and however the reads were cut; the record holds the file's location and
size, no other identity is touched, and any other file with the same bytes is recorded
under the same key. -/
theorem identity_is_fnv1_of_content (getwd : Except String String) (f : FileEntry)
    (rest : Listing) (dir base : String) (hasher hasher1 : Nat) (σ σ1 : State)
    (_hread : f.readErr = none)
    (hstep : importFile f dir base hasher σ = (.ok, hasher1, σ1)) :
    importEntries getwd (.file f rest) dir base hasher σ =
      importEntries getwd rest dir base hasher1 σ1 ∧
    (∃ file, σ1.db.Files (fnv1 f.chunks.flatten 14695981039346656037) = some file ∧
      file.Size = f.size ∧
      ∃ q ∈ file.Paths, q.Equal (mkPath (Join dir f.name) base) = true) ∧
    (∀ k, k ≠ fnv1 f.chunks.flatten 14695981039346656037 → σ1.db.Files k = σ.db.Files k) ∧
    (∀ (g : FileEntry) (dir2 base2 : String) (hasher2 hasher3 : Nat) (σ2 σ3 : State),
      g.readErr = none → g.chunks.flatten = f.chunks.flatten →
      importFile g dir2 base2 hasher2 σ2 = (.ok, hasher3, σ3) →
      ∃ file, σ3.db.Files (fnv1 f.chunks.flatten 14695981039346656037) = some file ∧
        ∃ q ∈ file.Paths, q.Equal (mkPath (Join dir2 g.name) base2) = true) := by
  obtain ⟨_, hm⟩ := importFile_ok_spec hstep
  obtain ⟨file, a1, a2, a3, _, a5, _⟩ := mergeStep_ok_spec hm
  refine ⟨importEntries_file_ok hstep, ⟨file, a1, a2, (any_equal_iff _ _).mp a3⟩, a5, ?_⟩
  intro g dir2 base2 hasher2 hasher3 σ2 σ3 _ hsame hg
  obtain ⟨_, hm2⟩ := importFile_ok_spec hg
  rw [hsame] at hm2
  obtain ⟨file2, b1, _, b3, _, _, _⟩ := mergeStep_ok_spec hm2
  exact ⟨file2, b1, (any_equal_iff _ _).mp b3⟩

/-- The loop body on `smallFile`, started with a hasher that holds something else. -/
theorem identity_is_fnv1_of_content_witness :
    importEntries (.ok "/") (.file smallFile .nil) "/r" "/r" 5 freshState =
      importEntries (.ok "/") .nil "/r" "/r" 12638153115695167421
        (importFile smallFile "/r" "/r" 5 freshState).2.2 ∧
    (∃ file, (importFile smallFile "/r" "/r" 5 freshState).2.2.db.Files
        (fnv1 smallFile.chunks.flatten 14695981039346656037) = some file ∧
      file.Size = smallFile.size ∧
      ∃ q ∈ file.Paths, q.Equal (mkPath (Join "/r" smallFile.name) "/r") = true) :=
  have h := identity_is_fnv1_of_content (.ok "/") smallFile .nil "/r" "/r" 5
    12638153115695167421 freshState (importFile smallFile "/r" "/r" 5 freshState).2.2 rfl rfl
  ⟨h.1, h.2.1⟩

/-- C6, what `Save` does: it ends the run exactly when `os.Create` or `Encode` fails;
when only `os.Rename` fails it returns normally, the backing file not replaced. -/
theorem save_returns_when_rename_fails :
    (∀ calls : SaveCalls, (∃ msg, Save calls = .fatal msg) ↔
      (calls.createErr ≠ none ∨ calls.encodeErr ≠ none)) ∧
    Save renameFails = .returned false := by
  refine ⟨?_, rfl⟩
  intro calls
  obtain ⟨c, e, cl, r⟩ := calls
  cases c <;> cases e <;> simp [Save]

/-- C5, what `ImportDir` does when a read fails: on a directory holding a file whose
first read fails and then a readable file, it returns `nil`, the unreadable file is
recorded (under the hash of no bytes, with its size 5), the next entry is processed
and the catalog is saved. -/
theorem read_error_is_ignored :
    (ImportDir (.ok "/") okDir (.file unreadableFile (.file smallFile .nil)) "/r" "/r"
      freshState).1 = .ok ∧
    (ImportDir (.ok "/") okDir (.file unreadableFile (.file smallFile .nil)) "/r" "/r"
      freshState).2.db.Files 14695981039346656037 =
        some ⟨14695981039346656037, [⟨"/r", "/", "a"⟩], 5⟩ ∧
    (ImportDir (.ok "/") okDir (.file unreadableFile (.file smallFile .nil)) "/r" "/r"
      freshState).2.log.map Event.step = [.enter, .file "a", .file "b", .save] := by
  decide

/-! ## The claims at concrete inputs -/

/-- Two locations merged under the identity 7 into the empty catalog. -/
theorem merge_two_locations_witness :
    ∃! file, catalogAB.Files 7 = some file ∧ file.Size = 100 ∧
      (∃ q ∈ file.Paths, q.Equal locA = true) ∧ (∃ q ∈ file.Paths, q.Equal locB = true) :=
  merge_two_locations (Database.empty "db") catalogA catalogAB 7 100 locA locB (by decide)
    (mergeStep_new 100 locA rfl)
    (@mergeStep_append catalogA 7 100 locB ⟨7, [locA], 100⟩ rfl rfl (by decide))

/-- The observation `(7, 100, locA)` merged twice into the empty catalog. -/
theorem merge_idempotent_witness :
    mergeStep catalogA 7 100 locA = .ok catalogA :=
  (merge_idempotent (Database.empty "db") catalogA 7 100 locA (mergeStep_new 100 locA rfl)).1

/-- The catalog reached by two observations has no duplicate location. -/
theorem merge_no_duplicate_locations_witness : NoDupPaths catalogAB :=
  merge_no_duplicate_locations.2.1 "db" [(7, 100, locA), (7, 100, locB)] catalogAB (by
    simp only [mergeAll]
    rw [show mergeStep (Database.empty "db") 7 100 locA = .ok catalogA from
      mergeStep_new 100 locA rfl]
    simp only
    rw [show mergeStep catalogA 7 100 locB = .ok catalogAB from
      @mergeStep_append catalogA 7 100 locB ⟨7, [locA], 100⟩ rfl rfl (by decide)])

/-- With `{"ab", "", "n"}` recorded, the merge of `{"a", "b", "n"}` writes nothing. -/
theorem equal_is_concatenation_equality_witness :
    mergeStep catalogShifted 7 100 (Path.mk "a" "b" "n") = .ok catalogShifted :=
  equal_is_concatenation_equality.2.2.2.2.2 (Database.empty "db") catalogShifted 7 100 "n"
    (mergeStep_new 100 _ rfl)

/-- The walk of `conflictTree` stops at `clashFile`: the later entries of `sub` and of
the root are not opened and nothing is saved. -/
theorem conflict_aborts_witness :
    ImportDir (.ok "/") okDir conflictTree "/r" "/r" freshState =
      (.err (.conflict 12638153115695167421 2 ⟨12638153115695167421, [⟨"/r", "/", "b"⟩], 1⟩),
        { db := conflictState3.db, log := conflictState3.log ++ [.openFile "/r/sub" "c"] }) :=
  conflict_aborts (.ok "/") okDir conflictTree "/r" "/r" freshState conflictState1 "/r" "/r"
    clashFile "/r/sub" "/r" offset64 conflictState3 12638153115695167421
    ⟨12638153115695167421, [⟨"/r", "/", "b"⟩], 1⟩ rfl
    (Reach.afterFile smallFile _ "/r" "/r" offset64 12638153115695167421 conflictState1
      conflictState2 "/r/sub" "/r" offset64 conflictState3 rfl
      (Reach.inDir "sub" okDir _ _ "/r" "/r" 12638153115695167421 conflictState2
        conflictState3 "/r/sub" "/r" "/r/sub" "/r" offset64 conflictState3 rfl
        (Reach.here _ "/r/sub" "/r" offset64 conflictState3)))
    rfl rfl rfl (by decide)

/-- The walk of `smallTree`: two directories, two saves, the last one of the final catalog. -/
theorem save_once_per_directory_witness :
    ∃ evs, (ImportDir (.ok "/") okDir smallTree "/r" "/r" freshState).2.log =
        freshState.log ++ evs ∧
      evs.map Event.step = .enter :: postOrder smallTree ++ [.save] ∧
      (evs.map Event.step).count .save = dirCount smallTree + 1 ∧
      (evs.map Event.step).count .enter = dirCount smallTree + 1 ∧
      evs.getLast? =
        some (.save (ImportDir (.ok "/") okDir smallTree "/r" "/r" freshState).2.db) :=
  save_once_per_directory (.ok "/") okDir smallTree "/r" "/r" freshState
    (ImportDir (.ok "/") okDir smallTree "/r" "/r" freshState).2 rfl

end Songcollect
